import Mathlib

/-!
Shallow embedding of the document extraction pipeline of the
search-scrape repository (file src/mcp-server/src/rust_scraper.rs),
together with proofs about the properties its specification states.

Machine strings are modelled as Lean strings (lists of characters);
byte lengths of Rust strings are modelled by the UTF-8 length of the
character list.  External crates (HTML parsing, readability, html2text,
whatlang) are modelled either by an explicit document tree type or by
function parameters, as documented at each definition.
-/

namespace SearchScrape

/-- Whitespace test implementing the Unicode White_Space property: the
character class matched by the Rust regex whitespace escape and by str
trimming and split_whitespace.  It holds the ASCII whitespace
characters plus next line, no-break space, ogham space mark, the
en-quad through hair-space range, the line and paragraph separators,
narrow no-break space, medium mathematical space and ideographic
space. -/
def rsWhite (c : Char) : Bool :=
  c.toNat = 32 || c.toNat = 9 || c.toNat = 10 || c.toNat = 11 ||
    c.toNat = 12 || c.toNat = 13 || c.toNat = 133 || c.toNat = 160 ||
    c.toNat = 5760 || (8192 ≤ c.toNat && c.toNat ≤ 8202) ||
    c.toNat = 8232 || c.toNat = 8233 || c.toNat = 8239 ||
    c.toNat = 8287 || c.toNat = 12288

/-- One pass rewriting every maximal whitespace run to a single space:
the first regex replacement inside clean_text.  The Boolean argument
records whether the previous character belonged to a whitespace run. -/
def collapseWsAux : Bool → List Char → List Char
  | _, [] => []
  | inRun, c :: rest =>
    if rsWhite c then
      if inRun then collapseWsAux true rest
      else ' ' :: collapseWsAux true rest
    else c :: collapseWsAux false rest

/-- Replacement of each maximal whitespace run by one space. -/
def collapseWs (l : List Char) : List Char := collapseWsAux false l

/-- Scan the maximal whitespace prefix of the list and return the
remainder after the last newline inside that prefix, when the prefix
holds one.  This is the greedy match of the tail of the second regex of
clean_text (newline, then any whitespace, then newline). -/
def lastNlSplit : List Char → Option (List Char)
  | [] => none
  | c :: rest =>
    if rsWhite c then
      match lastNlSplit rest with
      | some r => some r
      | none => if c = '\n' then some rest else none
    else none

/-- Fuel-indexed scanner for the second regex replacement of clean_text:
each leftmost non-overlapping match of newline, whitespace run, newline
is replaced by two newlines.  The fuel is always instantiated with the
length of the list, which suffices because every step consumes at least
one character; the fuel-exhausted branch is never reached. -/
def replNlAux : Nat → List Char → List Char
  | _, [] => []
  | 0, l => l
  | fuel + 1, c :: rest =>
    if c = '\n' then
      match lastNlSplit rest with
      | some r => '\n' :: '\n' :: replNlAux fuel r
      | none => c :: replNlAux fuel rest
    else c :: replNlAux fuel rest

/-- Second regex replacement of clean_text. -/
def replNl (l : List Char) : List Char := replNlAux l.length l

/-- Drop trailing whitespace characters. -/
def dropTrailWs : List Char → List Char
  | [] => []
  | c :: rest =>
    let r := dropTrailWs rest
    if r.isEmpty && rsWhite c then [] else c :: r

/-- Rust str trim: drop leading and trailing whitespace. -/
def trimChars (l : List Char) : List Char := dropTrailWs (l.dropWhile rsWhite)

/-- Model of clean_text from rust_scraper.rs: collapse every whitespace
run to one space, apply the (then vacuous) blank-line regex, and trim. -/
def clean_text (text : String) : String :=
  String.mk (trimChars (replNl (collapseWs text.data)))

/-- Word counter state machine; the Boolean records whether the previous
character was inside a word. -/
def countWordsAux : Bool → List Char → Nat
  | _, [] => 0
  | inWord, c :: rest =>
    if rsWhite c then countWordsAux false rest
    else (if inWord then 0 else 1) + countWordsAux true rest

/-- Model of count_words from rust_scraper.rs: the number of maximal
non-whitespace runs, as counted by split_whitespace. -/
def count_words (s : String) : Nat := countWordsAux false s.data

/-- ASCII lowercase of a character list, modelling case-insensitive
regex matching over the ASCII patterns involved. -/
def toLowerL (l : List Char) : List Char := l.map Char.toLower

/-- Substring test on character lists. -/
def containsSub (hay needle : List Char) : Bool :=
  match hay with
  | [] => needle.isEmpty
  | _ :: rest => needle.isPrefixOf hay || containsSub rest needle

/-- Word-constituent test modelling the regex word character class over
the ASCII range. -/
def isWordChar (c : Char) : Bool := c.isAlphanum || c = '_'

/-- Does the list start with the five letters of the share keyword
followed by a word boundary. -/
def startsShareWord : List Char → Bool
  | 's' :: 'h' :: 'a' :: 'r' :: 'e' :: rest =>
    match rest with
    | [] => true
    | c :: _ => !isWordChar c
  | _ => false

/-- Occurrence of the share keyword delimited by word boundaries on both
sides, anywhere in the list; the Boolean records whether the position
just before the cursor is a valid left boundary. -/
def hasShareAux : Bool → List Char → Bool
  | _, [] => false
  | prevOk, c :: rest =>
    (prevOk && startsShareWord (c :: rest)) || hasShareAux (!isWordChar c) rest

/-- Plain-substring branches of the garbage regex of post_clean_text. -/
def garbageNeedles : List (List Char) :=
  ["subscribe", "sign up", "cookie", "accept all", "advert", "sponsor",
   "newsletter", "related articles", "read more", "continue reading",
   "terms of service", "privacy policy"].map String.data

/-- Model of the garbage-line regex of post_clean_text: case-insensitive
substring needles, the word-bounded share keyword, and a whole-line
match of comment or comments. -/
def garbageMatch (s : List Char) : Bool :=
  let lc := toLowerL s
  garbageNeedles.any (fun n => containsSub lc n) || hasShareAux true lc ||
    lc == "comment".data || lc == "comments".data

/-- Split on the newline character, keeping empty pieces, as Rust
str split does. -/
def splitNl : List Char → List (List Char)
  | [] => [[]]
  | c :: rest =>
    if c = '\n' then [] :: splitNl rest
    else
      match splitNl rest with
      | [] => [[c]]
      | h :: t => (c :: h) :: t

/-- Remove consecutive duplicate lines, keeping the first of each run,
as Vec dedup does. -/
def dedupAdj : List (List Char) → List (List Char)
  | [] => []
  | [x] => [x]
  | x :: y :: rest =>
    if x == y then dedupAdj (y :: rest) else x :: dedupAdj (y :: rest)

/-- Join lines with single newlines, as join does. -/
def intercalateNl : List (List Char) → List Char
  | [] => []
  | [x] => x
  | x :: y :: rest => x ++ '\n' :: intercalateNl (y :: rest)

/-- Length of the leading newline run. -/
def nlRun (l : List Char) : Nat := (l.takeWhile (fun c => c = '\n')).length

/-- Fuel-indexed scanner for the final regex replacement of
post_clean_text: every run of three or more newlines becomes exactly
two.  The fuel is always instantiated with the length of the list,
which suffices because every step consumes at least one character. -/
def collapseMultiNlAux : Nat → List Char → List Char
  | _, [] => []
  | 0, l => l
  | fuel + 1, c :: rest =>
    if c = '\n' && 2 ≤ nlRun rest then
      '\n' :: '\n' :: collapseMultiNlAux fuel (rest.dropWhile (fun d => d = '\n'))
    else c :: collapseMultiNlAux fuel rest

/-- Final regex replacement of post_clean_text. -/
def collapseMultiNl (l : List Char) : List Char := collapseMultiNlAux l.length l

/-- UTF-8 byte length of a character list, modelling Rust str len. -/
def utf8Len (l : List Char) : Nat := l.foldl (fun n c => n + c.utf8Size) 0

/-- The line filter of post_clean_text applied to one line: trim, then
drop the line when empty, shorter than three bytes, or matching the
garbage regex. -/
def keepLine (line : List Char) : Option (List Char) :=
  let t := trimChars line
  if t.isEmpty then none
  else if utf8Len t < 3 then none
  else if garbageMatch t then none
  else some t

/-- Model of post_clean_text from rust_scraper.rs: normalize with
clean_text, split on newlines, filter lines, deduplicate adjacent
lines, rejoin, and collapse overlong newline runs. -/
def post_clean_text (text : String) : String :=
  let out := clean_text text
  let kept := (splitNl out.data).filterMap keepLine
  String.mk (collapseMultiNl (intercalateNl (dedupAdj kept)))

/-!
Document model.  HTML parsing itself is an external capability (the
scraper and select crates); the parsed preprocessed document is
modelled as a tree of elements and text nodes.  Element attributes are
kept as an association list; id and class accessors mirror the
attribute handling of the scraper crate.
-/

mutual
inductive HNode where
  | text (s : String)
  | elem (tag : String) (attrs : List (String × String)) (children : HForest)
inductive HForest where
  | nil
  | cons (n : HNode) (f : HForest)
end

/-- A parsed document: the list of top level nodes of the tree. -/
structure HDoc where
  root : HForest

/-- First attribute with the given name, as attribute lookup returns. -/
def getAttr (attrs : List (String × String)) (name : String) : Option String :=
  (attrs.find? (fun p => p.1 == name)).map (fun p => p.2)

/-- Maximal non-whitespace runs of a character list, as split_whitespace
produces them; the first argument accumulates the current word reversed. -/
def wordsOfAux : List Char → List Char → List (List Char)
  | acc, [] => if acc.isEmpty then [] else [acc.reverse]
  | acc, c :: rest =>
    if rsWhite c then
      if acc.isEmpty then wordsOfAux [] rest else acc.reverse :: wordsOfAux [] rest
    else wordsOfAux (c :: acc) rest

/-- Whitespace-separated words of a character list. -/
def wordsOf (l : List Char) : List (List Char) := wordsOfAux [] l

/-- Class tokens of an element, modelling the classes iterator of the
scraper crate: the class attribute split on whitespace. -/
def classesOf (attrs : List (String × String)) : List String :=
  match getAttr attrs "class" with
  | some s => (wordsOf s.data).map String.mk
  | none => []

/-- Substring needles of is_noise_identifier from rust_scraper.rs. -/
def noiseNeedles : List (List Char) :=
  ["ads", "advert", "adsense", "adunit", "ad-slot", "ad_container", "adbox",
   "sponsor", "promo", "cookie", "consent", "banner", "modal",
   "subscribe", "newsletter", "share", "social", "sidebar", "comments", "related",
   "breadcrumb", "pagination", "nav", "footer", "header", "hero", "toolbar"].map
    String.data

/-- Model of is_noise_identifier from rust_scraper.rs: ASCII lowercase
the identifier, then test substring containment of the fixed needle
list and the four hyphen and underscore adjacent ad markers. -/
def is_noise_identifier (ident : String) : Bool :=
  let lowered := toLowerL ident.data
  noiseNeedles.any (fun n => containsSub lowered n) ||
    containsSub lowered "-ad".data || containsSub lowered "ad-".data ||
    containsSub lowered "_ad".data || containsSub lowered "ad_".data

/-- Tags whose whole subtree the recursive text walk skips. -/
def skipTags : List String :=
  ["script", "style", "noscript", "svg", "canvas", "iframe", "form",
   "header", "footer", "nav", "aside"]

/-- Noise test of one element in the recursive text walk: noisy id, or
any noisy class token. -/
def elemNoisy (attrs : List (String × String)) : Bool :=
  (match getAttr attrs "id" with
   | some i => is_noise_identifier i
   | none => false) ||
  (classesOf attrs).any is_noise_identifier

/-!
Model of extract_text_recursive from rust_scraper.rs: collect the text
nodes of the subtree in encounter order, skipping every element whose
tag belongs to the skip list or whose id or class tokens are noisy.
The caller applies it to the children of a container element, exactly
as the Rust function iterates the children of its argument.
-/

mutual
def walkOne : HNode → List String
  | .text s => [s]
  | .elem tag attrs children =>
    if skipTags.contains tag || elemNoisy attrs then []
    else walkForest children
def walkForest : HForest → List String
  | .nil => []
  | .cons n f => walkOne n ++ walkForest f
end

/-- Join text parts with single spaces, as join with a space does. -/
def joinSpace : List String → String
  | [] => ""
  | [s] => s
  | s :: t :: rest => s ++ " " ++ joinSpace (t :: rest)

/-!
First element matching a predicate on tag and attributes, in
depth-first document order, and the list of all matching elements in
that order — modelling the iteration order of the select and scraper
crate selectors.
-/

mutual
def findFirstN (p : String → List (String × String) → Bool) : HNode → Option HNode
  | .text _ => none
  | .elem tag attrs children =>
    if p tag attrs then some (.elem tag attrs children)
    else findFirstF p children
def findFirstF (p : String → List (String × String) → Bool) : HForest → Option HNode
  | .nil => none
  | .cons n f =>
    match findFirstN p n with
    | some r => some r
    | none => findFirstF p f
end

mutual
def findAllN (p : String → List (String × String) → Bool) : HNode → List HNode
  | .text _ => []
  | .elem tag attrs children =>
    (if p tag attrs then [HNode.elem tag attrs children] else []) ++ findAllF p children
def findAllF (p : String → List (String × String) → Bool) : HForest → List HNode
  | .nil => []
  | .cons n f => findAllN p n ++ findAllF p f
end

/-!
Concatenated text of a subtree, as the text iterator collected into a
string.
-/

mutual
def textOfN : HNode → String
  | .text s => s
  | .elem _ _ children => textOfF children
def textOfF : HForest → String
  | .nil => ""
  | .cons n f => textOfN n ++ textOfF f
end

/-- Selector for an element with the given tag name. -/
def isTag (t : String) (tag : String) (_ : List (String × String)) : Bool := tag == t

/-- Selector for a div element whose id attribute equals content. -/
def isDivContent (tag : String) (attrs : List (String × String)) : Bool :=
  tag == "div" && getAttr attrs "id" == some "content"

/-- Trimmed string, modelling str trim composed with to_string. -/
def trimS (s : String) : String := String.mk (trimChars s.data)

/-!
Model of extract_mdbook_like from rust_scraper.rs.  The parameter h2t
stands for the external html2text rendering of the inner HTML of a
node (html2text::from_read at width 80 composed with inner_html); the
rest is translated from the source: try the div with id content, then
the first main element, then the first article element, clean each
candidate's text with clean_text and accept it when its word count
exceeds 50, falling through to the next rule otherwise.
-/

def mdAccept (h2t : HNode → String) (node : Option HNode) : Option String :=
  match node with
  | some n =>
    let cleaned := clean_text (h2t n)
    if 50 < count_words cleaned then some cleaned else none
  | none => none

def extract_mdbook_like (h2t : HNode → String) (doc : HDoc) : Option String :=
  match mdAccept h2t (findFirstF isDivContent doc.root) with
  | some s => some s
  | none =>
    match mdAccept h2t (findFirstF (isTag "main") doc.root) with
    | some s => some s
    | none => mdAccept h2t (findFirstF (isTag "article") doc.root)

/-- Model of fallback_text_extraction from rust_scraper.rs: the
noise-filtered recursive walk over the children of the first body
element, joined with spaces and cleaned with clean_text; no parts are
collected when the document has no body element. -/
def fallback_text_extraction (doc : HDoc) : String :=
  let parts :=
    match findFirstF (isTag "body") doc.root with
    | some (.elem _ _ children) => walkForest children
    | _ => []
  clean_text (joinSpace parts)

/-- One selector of the heuristic extractor: tag, attribute equality,
class token, or id. -/
inductive HSel where
  | tagSel (t : String)
  | attrSel (name : String) (value : String)
  | classSel (c : String)
  | idSel (i : String)

/-- Does an element match a selector. -/
def selMatches : HSel → String → List (String × String) → Bool
  | .tagSel t, tag, _ => tag == t
  | .attrSel n v, _, attrs => getAttr attrs n == some v
  | .classSel c, _, attrs => (classesOf attrs).contains c
  | .idSel i, _, attrs => getAttr attrs "id" == some i

/-- The candidate selectors of heuristic_main_extraction, in priority
order, as written in rust_scraper.rs. -/
def heuristicSelectors : List HSel :=
  [.tagSel "article", .tagSel "main", .attrSel "role" "main",
   .attrSel "itemprop" "articleBody", .classSel "entry-content",
   .classSel "post-content", .classSel "article-content",
   .idSel "content", .idSel "main", .classSel "content",
   .classSel "post", .classSel "article"]

/-- Candidate text of one matched element inside
heuristic_main_extraction: the noise-filtered walk of its children,
joined with spaces and normalized with post_clean_text. -/
def heuristicCandText (n : HNode) : String :=
  match n with
  | .elem _ _ children => post_clean_text (joinSpace (walkForest children))
  | .text s => post_clean_text (joinSpace (walkOne (.text s)))

/-- Best-candidate fold of heuristic_main_extraction: keep the first
candidate of strictly greatest word count, starting from the empty
text. -/
def heuristicFold (cands : List String) : String × Nat :=
  cands.foldl
    (fun acc t =>
      let wc := count_words t
      if acc.2 < wc then (t, wc) else acc)
    ("", 0)

/-- Model of heuristic_main_extraction from rust_scraper.rs: evaluate
every element matched by every selector in order and keep the single
best (highest word count) normalized text. -/
def heuristic_main_extraction (doc : HDoc) : String :=
  (heuristicFold (heuristicSelectors.flatMap (fun sel =>
      (findAllF (selMatches sel) doc.root).map heuristicCandText))).1

/-- The readability candidate text computed inside
extract_clean_content: the normalized html2text rendering of the
readability product when extraction succeeded, the empty string when
it failed.  The Option argument stands for the outcome of the external
readability crate composed with html2text. -/
def readabilityTextOf (readability_result : Option String) : String :=
  match readability_result with
  | some t => post_clean_text t
  | none => ""

/-- Model of the candidate arbitration of extract_clean_content
(the chosen binding): word counts of the readability and heuristic
candidates decide, with the fallback text as last resort.  Nat
addition models the saturating usize addition, which never saturates
at these sizes. -/
def chooseCandidate (readability_text heuristic_text fallback_text : String) : String :=
  let rt_words := count_words readability_text
  let ht_words := count_words heuristic_text
  if rt_words = 0 ∧ 0 < ht_words then heuristic_text
  else if ht_words = 0 ∧ 0 < rt_words then readability_text
  else if rt_words + 20 < ht_words then heuristic_text
  else if 0 < rt_words then readability_text
  else fallback_text

/-- Tail of extract_clean_content past the mdBook short circuit:
arbitrate candidates, normalize the chosen text, and when the result
is shorter than 80 bytes replace it by the normalized whole-document
conversion (the parameter whole_doc_text stands for the external
html2text rendering of the entire preprocessed document). -/
def selectorStage (readability_result : Option String)
    (heuristic_text fallback_text whole_doc_text : String) : String :=
  let readability_text := readabilityTextOf readability_result
  let chosen := chooseCandidate readability_text heuristic_text fallback_text
  let final_text := post_clean_text chosen
  if utf8Len final_text.data < 80 then post_clean_text whole_doc_text
  else final_text

/-- Model of extract_clean_content from rust_scraper.rs, stage level:
the first argument is the mdBook extractor result, which short
circuits the pipeline when its byte length exceeds 120. -/
def extract_clean_content (md_result readability_result : Option String)
    (heuristic_text fallback_text whole_doc_text : String) : String :=
  match md_result with
  | some md_text =>
    if 120 < utf8Len md_text.data then post_clean_text md_text
    else selectorStage readability_result heuristic_text fallback_text whole_doc_text
  | none => selectorStage readability_result heuristic_text fallback_text whole_doc_text

/-- extract_clean_content applied to a parsed document: the mdBook,
heuristic and fallback stages are computed from the document by their
models above; the readability outcome and the whole-document html2text
rendering remain parameters for the external crates. -/
def extract_clean_content_doc (h2t : HNode → String)
    (readability_result : Option String) (whole_doc_text : String) (doc : HDoc) : String :=
  extract_clean_content (extract_mdbook_like h2t doc) readability_result
    (heuristic_main_extraction doc) (fallback_text_extraction doc) whole_doc_text

/-- The first structural rule of extract_mdbook_like that matches any
element: the div with id content, else the first main element, else
the first article element. -/
def structural_first_match (doc : HDoc) : Option HNode :=
  match findFirstF isDivContent doc.root with
  | some n => some n
  | none =>
    match findFirstF (isTag "main") doc.root with
    | some n => some n
    | none => findFirstF (isTag "article") doc.root

/-- Follows the specification text of section 4.4 word for word: the
arbitration decision table as the spec states it, kept separate from
the source translation chooseCandidate so the two can be compared. -/
def specDecisionTable (R H F : String) : String :=
  if count_words R = 0 ∧ 0 < count_words H then H
  else if count_words H = 0 ∧ 0 < count_words R then R
  else if count_words R + 20 < count_words H then H
  else if 0 < count_words R then R
  else F

/-- Does the noise-filtered recursive walk of the body's children
collect any text that is not all whitespace.  This is the condition
under which the fallback extraction is provably non-empty; visible
text lying only inside walk-skipped subtrees does not satisfy it (see
the counterexample for the stronger original claim). -/
def bodyVisibleText (doc : HDoc) : Bool :=
  match findFirstF (isTag "body") doc.root with
  | some (.elem _ _ children) =>
    (joinSpace (walkForest children)).data.any (fun c => !rsWhite c)
  | _ => false

/-!
Language detection.  Statistical detection of the whatlang crate is an
external capability; its outcome is modelled as an optional value of
the type below, carrying either one of the ten languages the fixed
table maps, or the debug name of any other detected language.
-/

inductive WhatLang where
  | eng
  | spa
  | fra
  | deu
  | ita
  | por
  | rus
  | jpn
  | kor
  | cmn
  | otherLang (debugName : String)

/-- The fixed mapping table of detect_language, with any other
detected language rendered as its lowercased debug name. -/
def langCode : WhatLang → String
  | .eng => "en"
  | .spa => "es"
  | .fra => "fr"
  | .deu => "de"
  | .ita => "it"
  | .por => "pt"
  | .rus => "ru"
  | .jpn => "ja"
  | .kor => "ko"
  | .cmn => "zh"
  | .otherLang s => String.mk (toLowerL s.data)

/-- Selector for the meta element with http-equiv content-language. -/
def isMetaContentLanguage (tag : String) (attrs : List (String × String)) : Bool :=
  tag == "meta" && getAttr attrs "http-equiv" == some "content-language"

/-- The lang attribute of the first html element, when both exist. -/
def htmlLangAttr (doc : HDoc) : Option String :=
  (findFirstF (isTag "html") doc.root).bind (fun n =>
    match n with
    | .elem _ attrs _ => getAttr attrs "lang"
    | _ => none)

/-- The content attribute of the first meta content-language element,
when both exist. -/
def metaContentLanguage (doc : HDoc) : Option String :=
  (findFirstF isMetaContentLanguage doc.root).bind (fun n =>
    match n with
    | .elem _ attrs _ => getAttr attrs "content"
    | _ => none)

/-- Model of detect_language from rust_scraper.rs: the trimmed html
lang attribute if present, else the trimmed meta content-language
content, else the mapped statistical detection outcome, else the
literal unknown. -/
def detect_language (doc : HDoc) (whatlangResult : Option WhatLang) : String :=
  match htmlLangAttr doc with
  | some lang => trimS lang
  | none =>
    match metaContentLanguage doc with
    | some content => trimS content
    | none =>
      match whatlangResult with
      | some info => langCode info
      | none => "unknown"

/-- Output heading record, as in types.rs: the level is the selector
string h1 through h6. -/
structure Heading where
  level : String
  text : String
deriving DecidableEq

/-- The selector string for one heading level, as the match in
extract_headings produces it. -/
def headingSelName (level : Nat) : String :=
  match level with
  | 1 => "h1"
  | 2 => "h2"
  | 3 => "h3"
  | 4 => "h4"
  | 5 => "h5"
  | _ => "h6"

/-- All headings of one level in document order, with trimmed non-empty
text, as the inner loop of extract_headings collects them. -/
def headingsOfLevel (doc : HDoc) (level : Nat) : List Heading :=
  let sel := headingSelName level
  (findAllF (isTag sel) doc.root).filterMap (fun n =>
    let t := trimS (textOfN n)
    if t = "" then none else some ⟨sel, t⟩)

/-- Model of extract_headings from rust_scraper.rs: levels 1 through 6
in order, each contributing all its headings in document order. -/
def extract_headings (doc : HDoc) : List Heading :=
  [1, 2, 3, 4, 5, 6].flatMap (headingsOfLevel doc)

/-- Numeric level of a heading record, for stating the grouping
property. -/
def headingLevelNum (h : Heading) : Nat :=
  if h.level = "h1" then 1
  else if h.level = "h2" then 2
  else if h.level = "h3" then 3
  else if h.level = "h4" then 4
  else if h.level = "h5" then 5
  else 6

/-- Output code block record, as in types.rs. -/
structure CodeBlock where
  language : Option String
  code : String
  start_char : Option Nat
  end_char : Option Nat
deriving DecidableEq

/-- Model of calculate_extraction_score from rust_scraper.rs.  The f64
arithmetic of the source is modelled over the rationals; every constant
involved is exactly representable and no rounding behaviour is relied
upon by the statements proved below. -/
def calculate_extraction_score (word_count : Nat) (published_at : Option String)
    (code_blocks : List CodeBlock) (headings : List Heading) : ℚ :=
  let score : ℚ := 0
  let score := if 50 < word_count then score + 3 / 10
    else if 20 < word_count then score + 15 / 100 else score
  let score := if published_at.isSome then score + 2 / 10 else score
  let score := if code_blocks.isEmpty then score else score + 2 / 10
  let score := if 2 < headings.length then score + 15 / 100
    else if headings.isEmpty then score else score + 75 / 1000
  let length_score : ℚ :=
    if 500 ≤ word_count ∧ word_count ≤ 2000 then 15 / 100
    else if 2000 < word_count then 15 / 100 * min (2000 / (word_count : ℚ)) 1
    else if 100 < word_count then 15 / 100 * ((word_count : ℚ) / 500)
    else 0
  min (score + length_score) 1

/-- Follows the specification text of section 4.8 word for word: the
score formula as a function of word count, date presence, code block
count and heading count, kept separate from the source translation
calculate_extraction_score so the two can be compared. -/
def specScoreFormula (word_count : Nat) (has_published_date : Bool)
    (code_block_count heading_count : Nat) : ℚ :=
  let content : ℚ :=
    if 50 < word_count then 30 / 100 else if 20 < word_count then 15 / 100 else 0
  let date : ℚ := if has_published_date then 20 / 100 else 0
  let codeBonus : ℚ := if 1 ≤ code_block_count then 20 / 100 else 0
  let headBonus : ℚ :=
    if 2 < heading_count then 15 / 100
    else if 0 < heading_count then 75 / 1000 else 0
  let lengthBonus : ℚ :=
    if 500 ≤ word_count ∧ word_count ≤ 2000 then 15 / 100
    else if 2000 < word_count then 15 / 100 * min 1 (2000 / (word_count : ℚ))
    else if 100 < word_count ∧ word_count ≤ 500 then 15 / 100 * ((word_count : ℚ) / 500)
    else 0
  min 1 (content + date + codeBonus + headBonus + lengthBonus)

/-- Selector for a meta element with the given property attribute. -/
def isMetaProp (propVal : String) (tag : String) (attrs : List (String × String)) : Bool :=
  tag == "meta" && getAttr attrs "property" == some propVal

/-- Model of extract_published_time from rust_scraper.rs: trimmed
content of the meta article published time element. -/
def extract_published_time (doc : HDoc) : Option String :=
  (findFirstF (isMetaProp "article:published_time") doc.root).bind (fun n =>
    match n with
    | .elem _ attrs _ => (getAttr attrs "content").map trimS
    | _ => none)

/-- The fields of the output record that the verified claims speak
about, as in types.rs. -/
structure ScrapeRecord where
  clean_content : String
  word_count : Nat
  reading_time_minutes : Option Nat
  headings : List Heading
  language : String
  extraction_score : ℚ

/-- Ceiling of word_count over 200, modelling the f64 ceil of the
source, which is exact at these magnitudes. -/
def ceilDiv200 (w : Nat) : Nat := (w + 199) / 200

/-- Model of the pure assembly tail of scrape_url from rust_scraper.rs:
the final clean content, the word count recomputed from it, the
reading time, the headings, the language and the extraction score are
produced exactly as the source wires them.  The code block list
remains a parameter for the unmodelled extract_code_blocks metadata
extractor, whose internals no claim depends on. -/
def assemble_response (h2t : HNode → String) (readability_result : Option String)
    (whole_doc_text : String) (whatlangResult : Option WhatLang)
    (code_blocks : List CodeBlock) (doc : HDoc) : ScrapeRecord :=
  let clean_content := extract_clean_content_doc h2t readability_result whole_doc_text doc
  let word_count := count_words clean_content
  let published_at := extract_published_time doc
  let headings := extract_headings doc
  { clean_content := clean_content
    word_count := word_count
    reading_time_minutes := some (max (ceilDiv200 word_count) 1)
    headings := headings
    language := detect_language doc whatlangResult
    extraction_score := calculate_extraction_score word_count published_at code_blocks headings }

/-- Is the head, when present, a non-whitespace character. -/
def headNonWs : List Char → Bool
  | [] => true
  | c :: _ => !rsWhite c

/-- Is the last character, when present, non-whitespace. -/
def lastNonWs : List Char → Bool
  | [] => true
  | [c] => !rsWhite c
  | _ :: c :: rest => lastNonWs (c :: rest)

/-- Canonical form produced by the whitespace pass: every whitespace
character is a plain space, and no whitespace character is followed by
another whitespace character. -/
def isCanon : List Char → Bool
  | [] => true
  | c :: rest => (!rsWhite c || (c == ' ' && headNonWs rest)) && isCanon rest

/-- Concrete document used to witness the selector fallback branch. -/
def docBodyHello : HDoc :=
  ⟨.cons (.elem "body" [] (.cons (.text "Hello world") .nil)) .nil⟩

/-- Concrete document whose visible body text is shorter than the line
filter threshold. -/
def docBodyHi : HDoc :=
  ⟨.cons (.elem "body" [] (.cons (.text "Hi") .nil)) .nil⟩

/-- Concrete document whose html element carries an empty lang
attribute. -/
def docLangEmpty : HDoc :=
  ⟨.cons (.elem "html" [("lang", "")] .nil) .nil⟩

/-- Concrete document with a level two heading before a level one
heading. -/
def docLevels : HDoc :=
  ⟨.cons (.elem "h2" [] (.cons (.text "B") .nil))
    (.cons (.elem "h1" [] (.cons (.text "A") .nil)) .nil)⟩

/-- Concrete document holding a div with id content. -/
def docDivContent : HDoc :=
  ⟨.cons (.elem "div" [("id", "content")] (.cons (.text "x") .nil)) .nil⟩

/-- Concrete rendering used to witness the structural short circuit:
fifty-one two-letter words, 152 bytes long. -/
def structuralWitnessText : String :=
  String.intercalate " " (List.replicate 51 "aa")

/-- Does the body of the document contain visible text in the plain
sense: any non-whitespace character in the full text content of the
first body element, walk-skipped subtrees included. -/
def bodyRawVisibleText (doc : HDoc) : Bool :=
  match findFirstF (isTag "body") doc.root with
  | some n => (textOfN n).data.any (fun c => !rsWhite c)
  | none => false

/-- Follows the wording of the first structural rule as the claim
states it: any element whose id attribute equals content, regardless
of its tag — to be compared with the source's isDivContent, which
additionally requires a div. -/
def isIdContent (_ : String) (attrs : List (String × String)) : Bool :=
  getAttr attrs "id" == some "content"

/-- Concrete document whose body's only visible text sits inside a
footer, a subtree the noise-filtered walk skips. -/
def docFooterHi : HDoc :=
  ⟨.cons (.elem "body" []
    (.cons (.elem "footer" [] (.cons (.text "Hi there everyone") .nil)) .nil)) .nil⟩

/-- Concrete document whose only content container is a section with
id content — matched by the rule as the claim words it, but not by the
div-restricted rule of the source. -/
def docSectionContent : HDoc :=
  ⟨.cons (.elem "section" [("id", "content")] (.cons (.text "Hi") .nil)) .nil⟩

section NormalizerLemmas

lemma headNonWs_collapseWsAux_true (l : List Char) :
    headNonWs (collapseWsAux true l) = true := by
  induction l with
  | nil => rfl
  | cons c rest ih =>
    by_cases h : rsWhite c
    · simpa [collapseWsAux, h] using ih
    · simp [collapseWsAux, h, headNonWs]

lemma isCanon_collapseWsAux (l : List Char) :
    ∀ b, isCanon (collapseWsAux b l) = true := by
  induction l with
  | nil => intro b; rfl
  | cons c rest ih =>
    intro b
    by_cases h : rsWhite c
    · cases b with
      | true => simpa [collapseWsAux, h] using ih true
      | false =>
        simp only [collapseWsAux, h, if_true, if_false]
        simp [isCanon, headNonWs_collapseWsAux_true, ih true,
          show rsWhite ' ' = true from rfl]
    · simp [collapseWsAux, h, isCanon, ih false]

lemma not_nl_of_isCanon : ∀ l : List Char, isCanon l = true → '\n' ∉ l := by
  intro l
  induction l with
  | nil => intro _ h; cases h
  | cons c rest ih =>
    intro hc hmem
    rw [isCanon, Bool.and_eq_true] at hc
    rcases List.mem_cons.mp hmem with hh | hh
    · rw [← hh] at hc
      simpa [show rsWhite '\n' = true from rfl,
        show (('\n' : Char) == ' ') = false from rfl] using hc.1
    · exact ih hc.2 hh

lemma collapseWsAux_canon (l : List Char) (hcanon : isCanon l = true) :
    collapseWsAux false l = l ∧ (headNonWs l = true → collapseWsAux true l = l) := by
  induction l with
  | nil => exact ⟨rfl, fun _ => rfl⟩
  | cons c rest ih =>
    rw [isCanon, Bool.and_eq_true] at hcanon
    obtain ⟨h1, h2⟩ := hcanon
    by_cases h : rsWhite c
    · rw [h] at h1
      simp only [Bool.not_true, Bool.false_or, Bool.and_eq_true, beq_iff_eq] at h1
      obtain ⟨hc, hh⟩ := h1
      constructor
      · subst hc
        simp [collapseWsAux, (show rsWhite ' ' = true from rfl), (ih h2).2 hh]
      · intro hhead
        rw [headNonWs, h] at hhead
        cases hhead
    · constructor
      · simp [collapseWsAux, h, (ih h2).1]
      · intro _
        simp [collapseWsAux, h, (ih h2).1]

lemma replNlAux_no_nl : ∀ (f : Nat) (l : List Char), '\n' ∉ l → replNlAux f l = l := by
  intro f
  induction f with
  | zero => intro l _; cases l <;> rfl
  | succ f ih =>
    intro l h
    cases l with
    | nil => rfl
    | cons c rest =>
      rw [List.mem_cons, not_or] at h
      have hc : ¬ c = '\n' := fun he => h.1 he.symm
      rw [replNlAux, if_neg hc, ih rest h.2]

lemma replNl_no_nl (l : List Char) (h : '\n' ∉ l) : replNl l = l :=
  replNlAux_no_nl _ _ h

lemma splitNl_no_nl : ∀ l : List Char, '\n' ∉ l → splitNl l = [l] := by
  intro l
  induction l with
  | nil => intro _; rfl
  | cons c rest ih =>
    intro h
    rw [List.mem_cons, not_or] at h
    have hc : ¬ c = '\n' := fun he => h.1 he.symm
    rw [splitNl, if_neg hc, ih h.2]

lemma collapseMultiNlAux_no_nl :
    ∀ (f : Nat) (l : List Char), '\n' ∉ l → collapseMultiNlAux f l = l := by
  intro f
  induction f with
  | zero => intro l _; cases l <;> rfl
  | succ f ih =>
    intro l h
    cases l with
    | nil => rfl
    | cons c rest =>
      rw [List.mem_cons, not_or] at h
      have hc : ¬ c = '\n' := fun he => h.1 he.symm
      rw [collapseMultiNlAux]
      rw [if_neg (by simp [hc]), ih rest h.2]

lemma collapseMultiNl_no_nl (l : List Char) (h : '\n' ∉ l) : collapseMultiNl l = l :=
  collapseMultiNlAux_no_nl _ _ h

lemma headNonWs_dropWhile (l : List Char) : headNonWs (l.dropWhile rsWhite) = true := by
  induction l with
  | nil => rfl
  | cons c rest ih =>
    by_cases h : rsWhite c
    · simpa [List.dropWhile_cons, h] using ih
    · simp [List.dropWhile_cons, h, headNonWs]

lemma dropWhile_eq_self_of_headNonWs (l : List Char) (h : headNonWs l = true) :
    l.dropWhile rsWhite = l := by
  cases l with
  | nil => rfl
  | cons c rest =>
    rw [headNonWs, Bool.not_eq_true'] at h
    simp [List.dropWhile_cons, h]

lemma headNonWs_dropTrailWs (l : List Char) (h : headNonWs l = true) :
    headNonWs (dropTrailWs l) = true := by
  cases l with
  | nil => rfl
  | cons c rest =>
    rw [headNonWs, Bool.not_eq_true'] at h
    simp [dropTrailWs, h, headNonWs]

lemma lastNonWs_dropTrailWs (l : List Char) : lastNonWs (dropTrailWs l) = true := by
  induction l with
  | nil => rfl
  | cons c rest ih =>
    cases hdt : dropTrailWs rest with
    | nil =>
      by_cases hc : rsWhite c
      · simp [dropTrailWs, hdt, hc, lastNonWs]
      · simp [dropTrailWs, hdt, hc, lastNonWs]
    | cons d r =>
      have hne : (dropTrailWs rest).isEmpty = false := by simp [hdt]
      simp only [dropTrailWs, hne, Bool.false_and, Bool.if_false_left]
      rw [hdt] at ih ⊢
      simpa [lastNonWs] using ih

lemma dropTrailWs_eq_self (l : List Char) (h : lastNonWs l = true) :
    dropTrailWs l = l := by
  induction l with
  | nil => rfl
  | cons c rest ih =>
    cases rest with
    | nil =>
      rw [lastNonWs, Bool.not_eq_true'] at h
      simp [dropTrailWs, h]
    | cons d r =>
      have h' : lastNonWs (d :: r) = true := by
        rw [lastNonWs] at h
        exact h
      have hd := ih h'
      have hstep : dropTrailWs (c :: d :: r) =
          if (dropTrailWs (d :: r)).isEmpty && rsWhite c then []
          else c :: dropTrailWs (d :: r) := rfl
      rw [hstep, hd]
      simp

lemma headNonWs_trimChars (l : List Char) : headNonWs (trimChars l) = true :=
  headNonWs_dropTrailWs _ (headNonWs_dropWhile l)

lemma lastNonWs_trimChars (l : List Char) : lastNonWs (trimChars l) = true :=
  lastNonWs_dropTrailWs _

lemma trimChars_eq_self (l : List Char) (h1 : headNonWs l = true)
    (h2 : lastNonWs l = true) : trimChars l = l := by
  unfold trimChars
  rw [dropWhile_eq_self_of_headNonWs l h1, dropTrailWs_eq_self l h2]

lemma trimChars_idem (l : List Char) : trimChars (trimChars l) = trimChars l :=
  trimChars_eq_self _ (headNonWs_trimChars l) (lastNonWs_trimChars l)

lemma isCanon_tail {c : Char} {rest : List Char} (h : isCanon (c :: rest) = true) :
    isCanon rest = true := by
  rw [isCanon, Bool.and_eq_true] at h
  exact h.2

lemma isCanon_dropWhile (l : List Char) (h : isCanon l = true) :
    isCanon (l.dropWhile rsWhite) = true := by
  induction l with
  | nil => exact h
  | cons c rest ih =>
    by_cases hc : rsWhite c
    · rw [List.dropWhile_cons, if_pos hc]
      exact ih (isCanon_tail h)
    · rwa [List.dropWhile_cons, if_neg (by simp [hc])]

lemma isCanon_dropTrailWs (l : List Char) (h : isCanon l = true) :
    isCanon (dropTrailWs l) = true := by
  induction l with
  | nil => exact h
  | cons c rest ih =>
    have h2 := isCanon_tail h
    have h1 : (!rsWhite c || (c == ' ' && headNonWs rest)) = true := by
      rw [isCanon, Bool.and_eq_true] at h
      exact h.1
    have hrest := ih h2
    by_cases hcond : ((dropTrailWs rest).isEmpty && rsWhite c) = true
    · simp [dropTrailWs, hcond, isCanon]
    · by_cases hc : rsWhite c
      · rw [hc] at h1
        simp only [Bool.not_true, Bool.false_or, Bool.and_eq_true, beq_iff_eq] at h1
        obtain ⟨hsp, hh⟩ := h1
        have hhd : headNonWs (dropTrailWs rest) = true := headNonWs_dropTrailWs rest hh
        have hstep : dropTrailWs (c :: rest) =
            if (dropTrailWs rest).isEmpty && rsWhite c then []
            else c :: dropTrailWs rest := rfl
        rw [hstep, if_neg hcond, isCanon, Bool.and_eq_true]
        subst hsp
        refine ⟨?_, hrest⟩
        simp [show rsWhite ' ' = true from rfl, hhd]
      · have hstep : dropTrailWs (c :: rest) =
            if (dropTrailWs rest).isEmpty && rsWhite c then []
            else c :: dropTrailWs rest := rfl
        rw [hstep, if_neg hcond, isCanon, Bool.and_eq_true]
        refine ⟨?_, hrest⟩
        simp [hc]

lemma isCanon_trimChars (l : List Char) (h : isCanon l = true) :
    isCanon (trimChars l) = true :=
  isCanon_dropTrailWs _ (isCanon_dropWhile l h)

lemma string_mk_data (s : String) : String.mk s.data = s := rfl

lemma isCanon_collapseWs (l : List Char) : isCanon (collapseWs l) = true :=
  isCanon_collapseWsAux l false

lemma no_nl_collapseWs (l : List Char) : '\n' ∉ collapseWs l :=
  not_nl_of_isCanon _ (isCanon_collapseWs l)

lemma clean_text_eq_trim_collapse (x : String) :
    clean_text x = String.mk (trimChars (collapseWs x.data)) := by
  unfold clean_text
  rw [replNl_no_nl _ (no_nl_collapseWs x.data)]

lemma isCanon_clean_text (x : String) : isCanon (clean_text x).data = true := by
  rw [clean_text_eq_trim_collapse]
  exact isCanon_trimChars _ (isCanon_collapseWs x.data)

lemma no_nl_clean_text (x : String) : '\n' ∉ (clean_text x).data :=
  not_nl_of_isCanon _ (isCanon_clean_text x)

lemma trimChars_clean_text (x : String) :
    trimChars (clean_text x).data = (clean_text x).data := by
  rw [clean_text_eq_trim_collapse]
  exact trimChars_idem _

lemma collapseWs_clean_text (x : String) :
    collapseWs (clean_text x).data = (clean_text x).data :=
  (collapseWsAux_canon _ (isCanon_clean_text x)).1

lemma clean_text_idem (x : String) : clean_text (clean_text x) = clean_text x := by
  have h1 : clean_text (clean_text x) =
      String.mk (trimChars (replNl (collapseWs (clean_text x).data))) := rfl
  rw [h1, collapseWs_clean_text, replNl_no_nl _ (no_nl_clean_text x),
    trimChars_clean_text, string_mk_data]

lemma dropTrailWs_sublist (l : List Char) : List.Sublist (dropTrailWs l) l := by
  induction l with
  | nil => simp [dropTrailWs]
  | cons c rest ih =>
    have hstep : dropTrailWs (c :: rest) =
        if (dropTrailWs rest).isEmpty && rsWhite c then []
        else c :: dropTrailWs rest := rfl
    rw [hstep]
    by_cases hcond : ((dropTrailWs rest).isEmpty && rsWhite c) = true
    · rw [if_pos hcond]
      exact List.nil_sublist _
    · rw [if_neg hcond]
      exact ih.cons₂ c

lemma trimChars_sublist (l : List Char) : List.Sublist (trimChars l) l :=
  (dropTrailWs_sublist _).trans (List.dropWhile_sublist _)

lemma keepLine_eq_some {l t : List Char} (h : keepLine l = some t) :
    t = trimChars l ∧ t.isEmpty = false ∧ 3 ≤ utf8Len t ∧ garbageMatch t = false := by
  simp only [keepLine] at h
  by_cases h1 : (trimChars l).isEmpty = true
  · rw [if_pos h1] at h
    exact Option.noConfusion h
  · rw [if_neg h1] at h
    by_cases h2 : utf8Len (trimChars l) < 3
    · rw [if_pos h2] at h
      exact Option.noConfusion h
    · rw [if_neg h2] at h
      by_cases h3 : garbageMatch (trimChars l) = true
      · rw [if_pos h3] at h
        exact Option.noConfusion h
      · rw [if_neg h3] at h
        obtain rfl := (Option.some.inj h).symm
        refine ⟨rfl, ?_, Nat.not_lt.mp h2, ?_⟩
        · revert h1
          cases (trimChars l).isEmpty <;> simp
        · revert h3
          cases garbageMatch (trimChars l) <;> simp

lemma post_clean_text_eq (x : String) :
    post_clean_text x =
      (match keepLine (clean_text x).data with
       | none => ""
       | some t => String.mk t) := by
  simp only [post_clean_text]
  rw [splitNl_no_nl _ (no_nl_clean_text x)]
  cases hk : keepLine (clean_text x).data with
  | none => simp [hk, dedupAdj, intercalateNl, collapseMultiNl, collapseMultiNlAux]
  | some t =>
    have hsub : List.Sublist t (clean_text x).data := by
      rw [(keepLine_eq_some hk).1]
      exact trimChars_sublist _
    have hnl : '\n' ∉ t := fun hm => no_nl_clean_text x (hsub.mem hm)
    simp [hk, dedupAdj, intercalateNl, collapseMultiNl_no_nl t hnl]

lemma keepLine_clean_text (x : String) :
    keepLine (clean_text x).data = none ∨
      keepLine (clean_text x).data = some (clean_text x).data := by
  simp only [keepLine]
  rw [trimChars_clean_text]
  split_ifs <;> simp

lemma post_clean_text_cases (x : String) :
    post_clean_text x = "" ∨ post_clean_text x = clean_text x := by
  rcases keepLine_clean_text x with hk | hk
  · left
    rw [post_clean_text_eq, hk]
  · right
    rw [post_clean_text_eq, hk]

lemma post_clean_text_clean (x : String) (hlen : 3 ≤ utf8Len (clean_text x).data)
    (hg : garbageMatch (clean_text x).data = false) :
    post_clean_text (clean_text x) = clean_text x := by
  have hne : (clean_text x).data.isEmpty = false := by
    cases hd : (clean_text x).data with
    | nil =>
      rw [hd] at hlen
      exact absurd hlen (by simp [utf8Len])
    | cons _ _ => rfl
  have hk : keepLine (clean_text x).data = some (clean_text x).data := by
    simp only [keepLine]
    rw [trimChars_clean_text]
    rw [if_neg (by simp [hne]), if_neg (Nat.not_lt.mpr hlen), if_neg (by simp [hg])]
  rw [post_clean_text_eq (clean_text x), clean_text_idem x, hk]

lemma mem_collapseWsAux {c : Char} (hc : rsWhite c = false) :
    ∀ (l : List Char) (b : Bool), c ∈ l → c ∈ collapseWsAux b l := by
  intro l
  induction l with
  | nil => intro b h; cases h
  | cons d rest ih =>
    intro b h
    by_cases hd : rsWhite d
    · have hcr : c ∈ rest := by
        rcases List.mem_cons.mp h with rfl | h2
        · rw [hd] at hc; cases hc
        · exact h2
      cases b with
      | true => simpa [collapseWsAux, hd] using ih true hcr
      | false =>
        rw [collapseWsAux, if_pos hd]
        simp only [Bool.false_eq_true, if_neg]
        exact List.mem_cons_of_mem _ (ih true hcr)
    · rcases List.mem_cons.mp h with rfl | h2
      · rw [collapseWsAux, if_neg (by simp [hd])]
        exact List.mem_cons_self _ _
      · rw [collapseWsAux, if_neg (by simp [hd])]
        exact List.mem_cons_of_mem _ (ih false h2)

lemma mem_dropWhileWs {c : Char} (hc : rsWhite c = false) :
    ∀ l : List Char, c ∈ l → c ∈ l.dropWhile rsWhite := by
  intro l
  induction l with
  | nil => intro h; cases h
  | cons d rest ih =>
    intro h
    by_cases hd : rsWhite d
    · rw [List.dropWhile_cons, if_pos hd]
      rcases List.mem_cons.mp h with rfl | h2
      · rw [hd] at hc; cases hc
      · exact ih h2
    · rwa [List.dropWhile_cons, if_neg (by simp [hd])]

lemma mem_dropTrailWs {c : Char} (hc : rsWhite c = false) :
    ∀ l : List Char, c ∈ l → c ∈ dropTrailWs l := by
  intro l
  induction l with
  | nil => intro h; cases h
  | cons d rest ih =>
    intro h
    have hstep : dropTrailWs (d :: rest) =
        if (dropTrailWs rest).isEmpty && rsWhite d then []
        else d :: dropTrailWs rest := rfl
    rw [hstep]
    by_cases hcond : ((dropTrailWs rest).isEmpty && rsWhite d) = true
    · exfalso
      rw [Bool.and_eq_true] at hcond
      rcases List.mem_cons.mp h with rfl | h2
      · rw [hcond.2] at hc; cases hc
      · have := ih h2
        rw [List.isEmpty_iff.mp hcond.1] at this
        cases this
    · rw [if_neg hcond]
      rcases List.mem_cons.mp h with rfl | h2
      · exact List.mem_cons_self _ _
      · exact List.mem_cons_of_mem _ (ih h2)

lemma mem_trimChars {c : Char} (hc : rsWhite c = false) (l : List Char)
    (h : c ∈ l) : c ∈ trimChars l :=
  mem_dropTrailWs hc _ (mem_dropWhileWs hc l h)

lemma clean_text_ne_empty {x : String} (c : Char) (hc : rsWhite c = false)
    (hmem : c ∈ x.data) : clean_text x ≠ "" := by
  rw [clean_text_eq_trim_collapse]
  intro he
  have hdata : trimChars (collapseWs x.data) = [] := congrArg String.data he
  have h2 : c ∈ trimChars (collapseWs x.data) :=
    mem_trimChars hc _ (mem_collapseWsAux hc _ false hmem)
  rw [hdata] at h2
  cases h2

end NormalizerLemmas

section PipelineLemmas

lemma chooseCandidate_fallback {R H : String} (F : String)
    (hR : count_words R = 0) (hH : count_words H = 0) :
    chooseCandidate R H F = F := by
  simp [chooseCandidate, hR, hH]

lemma fallback_eq_of_body (doc : HDoc) (tag : String)
    (attrs : List (String × String)) (children : HForest)
    (hf : findFirstF (isTag "body") doc.root = some (.elem tag attrs children)) :
    fallback_text_extraction doc = clean_text (joinSpace (walkForest children)) := by
  simp only [fallback_text_extraction]
  rw [hf]

lemma fallback_ne_empty (doc : HDoc) (h : bodyVisibleText doc = true) :
    fallback_text_extraction doc ≠ "" := by
  unfold bodyVisibleText at h
  cases hf : findFirstF (isTag "body") doc.root with
  | none =>
    rw [hf] at h
    cases h
  | some n =>
    cases n with
    | text s =>
      rw [hf] at h
      cases h
    | elem tag attrs children =>
      rw [hf] at h
      obtain ⟨c, hcmem, hcw⟩ := List.any_eq_true.mp h
      rw [fallback_eq_of_body doc tag attrs children hf]
      exact clean_text_ne_empty c (by simpa using hcw) hcmem

lemma extract_mdbook_like_of_first (h2t : HNode → String) (doc : HDoc) (n : HNode)
    (hfirst : structural_first_match doc = some n)
    (hwc : 50 < count_words (clean_text (h2t n))) :
    extract_mdbook_like h2t doc = some (clean_text (h2t n)) := by
  unfold structural_first_match at hfirst
  unfold extract_mdbook_like
  cases h1 : findFirstF isDivContent doc.root with
  | some m =>
    rw [h1] at hfirst
    obtain rfl := Option.some.inj hfirst
    simp [mdAccept, hwc]
  | none =>
    rw [h1] at hfirst
    cases h2 : findFirstF (isTag "main") doc.root with
    | some m =>
      rw [h2] at hfirst
      obtain rfl := Option.some.inj hfirst
      simp [mdAccept, hwc]
    | none =>
      rw [h2] at hfirst
      have hfirst3 : findFirstF (isTag "article") doc.root = some n := hfirst
      simp [mdAccept, h1, h2, hfirst3, hwc]

lemma headingsOfLevel_inv (doc : HDoc) (k : Nat) (h : Heading)
    (hmem : h ∈ headingsOfLevel doc k) :
    h.level = headingSelName k ∧ h.text ≠ "" := by
  simp only [headingsOfLevel] at hmem
  rw [List.mem_filterMap] at hmem
  obtain ⟨n, _, hn⟩ := hmem
  by_cases ht : trimS (textOfN n) = ""
  · rw [if_pos ht] at hn
    exact Option.noConfusion hn
  · rw [if_neg ht] at hn
    obtain rfl := Option.some.inj hn
    exact ⟨rfl, ht⟩

lemma headingLevelNum_of_mem (doc : HDoc) (k : Nat)
    (hk : k ∈ ([1, 2, 3, 4, 5, 6] : List Nat)) (h : Heading)
    (hmem : h ∈ headingsOfLevel doc k) : headingLevelNum h = k := by
  have hl := (headingsOfLevel_inv doc k h hmem).1
  fin_cases hk <;> (unfold headingLevelNum; rw [hl]; decide)

lemma pairwise_flatMap_levels (doc : HDoc) :
    ∀ ks : List Nat, (∀ k ∈ ks, k ∈ ([1, 2, 3, 4, 5, 6] : List Nat)) →
      List.Pairwise (· ≤ ·) ks →
      List.Pairwise (fun a b => headingLevelNum a ≤ headingLevelNum b)
        (ks.flatMap (headingsOfLevel doc)) := by
  intro ks
  induction ks with
  | nil =>
    intro _ _
    simp
  | cons k rest ih =>
    intro hsub hpw
    rw [List.flatMap_cons, List.pairwise_append]
    obtain ⟨hk_le, hpw'⟩ := List.pairwise_cons.mp hpw
    have hkmem : k ∈ ([1, 2, 3, 4, 5, 6] : List Nat) := hsub k (List.mem_cons_self k rest)
    refine ⟨?_, ih (fun j hj => hsub j (List.mem_cons_of_mem k hj)) hpw', ?_⟩
    · apply List.pairwise_of_forall_mem_list
      intro a ha b hb
      rw [headingLevelNum_of_mem doc k hkmem a ha, headingLevelNum_of_mem doc k hkmem b hb]
    · intro a ha b hb
      rw [List.mem_flatMap] at hb
      obtain ⟨j, hj, hbj⟩ := hb
      rw [headingLevelNum_of_mem doc k hkmem a ha,
        headingLevelNum_of_mem doc j (hsub j (List.mem_cons_of_mem k hj)) b hbj]
      exact hk_le j hj

end PipelineLemmas

section ClaimTheorems

/-- Claim C1 counterexample: with both candidates at word count zero
and a body whose visible text sits entirely inside a footer, the
selector does run the fallback extraction and chooses its output, but
the noise-filtered walk skips the footer subtree, so the chosen
fallback output is empty — refuting the original claim that the
fallback extractor's non-empty output is used whenever the body
contains visible text. -/
theorem selector_fallback_counterexample_c1 :
    count_words "" = 0 ∧
    bodyRawVisibleText docFooterHi = true ∧
    chooseCandidate "" "" (fallback_text_extraction docFooterHi) =
      fallback_text_extraction docFooterHi ∧
    fallback_text_extraction docFooterHi = "" :=
  ⟨by decide, by decide, by decide, by decide⟩

/-- Claim C1 as amended: the Selector arbitrates exactly per the
decision table of the specification — the source translation
chooseCandidate coincides with the spec-side specDecisionTable on
every pair of candidates — and when both the readability and the
heuristic candidate have word count zero, the fallback extraction is
the chosen output; that output is non-empty whenever the
noise-filtered walk of the body collects any non-whitespace text
(visible text lying only inside walk-skipped subtrees can leave it
empty, refuting the original unconditional claim). -/
theorem selector_decision_table_c1 (R H : String) (doc : HDoc)
    (hR : count_words R = 0) (hH : count_words H = 0)
    (hvis : bodyVisibleText doc = true) :
    (∀ R0 H0 F0 : String, chooseCandidate R0 H0 F0 = specDecisionTable R0 H0 F0) ∧
    chooseCandidate R H (fallback_text_extraction doc) = fallback_text_extraction doc ∧
    fallback_text_extraction doc ≠ "" :=
  ⟨fun _ _ _ => rfl,
   chooseCandidate_fallback _ hR hH,
   fallback_ne_empty doc hvis⟩

/-- Witness for claim C1 at a concrete document whose body holds the
text Hello world, with empty readability and heuristic candidates. -/
theorem selector_decision_table_c1_witness :
    count_words "" = 0 ∧ bodyVisibleText docBodyHello = true ∧
    (chooseCandidate "" "" (fallback_text_extraction docBodyHello) =
        fallback_text_extraction docBodyHello ∧
      fallback_text_extraction docBodyHello ≠ "") :=
  ⟨by decide, by decide,
   (selector_decision_table_c1 "" "" docBodyHello (by decide) (by decide) (by decide)).2⟩

set_option maxRecDepth 40000 in
/-- Claim C2 counterexample: a section element with id content is
matched by the first structural rule as the claim words it (any
element with id content), and its rendered cleaned text passes both
acceptance thresholds, yet the source's short circuit requires a div:
the structural extractor yields nothing, the pipeline falls through to
the Selector, and the final clean_text (here empty) differs from the
structural rule's non-empty cleaned text — refuting the claim as
stated. -/
theorem structural_short_circuit_counterexample_c2 :
    findFirstF isIdContent docSectionContent.root =
        some (.elem "section" [("id", "content")] (.cons (.text "Hi") .nil)) ∧
    50 < count_words (clean_text structuralWitnessText) ∧
    120 < utf8Len (clean_text structuralWitnessText).data ∧
    extract_mdbook_like (fun _ => structuralWitnessText) docSectionContent = none ∧
    extract_clean_content_doc (fun _ => structuralWitnessText) none "" docSectionContent = "" ∧
    clean_text structuralWitnessText ≠ "" :=
  ⟨rfl, by decide, by decide, rfl, by decide, by decide⟩

/-- Claim C2 as amended: when the first structural rule that matches
anything (the div — not any element — with id content, else the first
main element, else the first article element) yields cleaned text of
more than 50 words whose normalized length exceeds 120 bytes, the
pipeline returns the final normalization of exactly that text,
whatever the readability outcome and the whole-document rendering are
— the readability, heuristic and fallback stages and the Selector
never touch it — and byte for byte unchanged whenever the text
triggers no garbage-line filter. -/
theorem structural_short_circuit_c2 (h2t : HNode → String) (doc : HDoc) (n : HNode)
    (rr : Option String) (wd : String)
    (hfirst : structural_first_match doc = some n)
    (hwc : 50 < count_words (clean_text (h2t n)))
    (hlen : 120 < utf8Len (clean_text (h2t n)).data) :
    extract_clean_content_doc h2t rr wd doc = post_clean_text (clean_text (h2t n)) ∧
    (garbageMatch (clean_text (h2t n)).data = false →
      extract_clean_content_doc h2t rr wd doc = clean_text (h2t n)) := by
  have hmd := extract_mdbook_like_of_first h2t doc n hfirst hwc
  have hmain : extract_clean_content_doc h2t rr wd doc
      = post_clean_text (clean_text (h2t n)) := by
    simp only [extract_clean_content_doc, extract_clean_content, hmd]
    rw [if_pos hlen]
  refine ⟨hmain, fun hg => ?_⟩
  rw [hmain]
  exact post_clean_text_clean (h2t n) (by omega) hg

set_option maxRecDepth 10000 in
/-- Witness for claim C2 at a concrete document holding a div with id
content, with the external rendering returning fifty-one words. -/
theorem structural_short_circuit_c2_witness :
    structural_first_match docDivContent =
        some (.elem "div" [("id", "content")] (.cons (.text "x") .nil)) ∧
    50 < count_words (clean_text structuralWitnessText) ∧
    120 < utf8Len (clean_text structuralWitnessText).data ∧
    extract_clean_content_doc (fun _ => structuralWitnessText) none "" docDivContent =
      post_clean_text (clean_text structuralWitnessText) :=
  ⟨rfl, by decide, by decide,
   (structural_short_circuit_c2 (fun _ => structuralWitnessText) docDivContent
      (.elem "div" [("id", "content")] (.cons (.text "x") .nil)) none ""
      rfl (by decide) (by decide)).1⟩

/-- Claim C3: the Text Normalizer post_clean_text is idempotent. -/
theorem normalizer_idempotent_c3 (x : String) :
    post_clean_text (post_clean_text x) = post_clean_text x := by
  rcases keepLine_clean_text x with hk | hk
  · have h0 : post_clean_text x = "" := by rw [post_clean_text_eq, hk]
    rw [h0]
    rfl
  · have h0 : post_clean_text x = clean_text x := by rw [post_clean_text_eq, hk]
    rw [h0, post_clean_text_eq (clean_text x), clean_text_idem x, hk]

/-- Claim C5: the word_count field of the assembled output record
always equals the whitespace-token count of the clean_content stored
in that record, for every document and every outcome of the external
stages — it is recomputed from the final text, never carried from an
intermediate candidate. -/
theorem word_count_recomputed_c5 (h2t : HNode → String) (rr : Option String)
    (wd : String) (wl : Option WhatLang) (cbs : List CodeBlock) (doc : HDoc) :
    (assemble_response h2t rr wd wl cbs doc).word_count =
      count_words (assemble_response h2t rr wd wl cbs doc).clean_content := rfl

/-- Claim C6 counterexample: a document whose body holds the visible
text Hi still produces an empty final clean_text — the two-character
line is dropped by the minimum-length line filter both for the selected
candidate and for the last-resort whole-document conversion — refuting
the claimed guarantee of non-empty output whenever the document has
visible text. -/
theorem short_output_counterexample_c6 :
    extract_clean_content_doc (fun _ => "") none "Hi" docBodyHi = "" ∧
    bodyVisibleText docBodyHi = true :=
  ⟨by decide, by decide⟩

/-- Claim C6 as amended: when the pipeline is not short-circuited by
the structural extractor and the selected candidate's final normalized
length is under 80 bytes, the candidate is discarded and the final
clean_text is the normalized conversion of the entire preprocessed
document — hence non-empty exactly when that normalized conversion is
non-empty, but possibly empty for documents whose visible text falls
below the line filter thresholds. -/
theorem short_output_last_resort_c6 (md_result rr : Option String) (ht fb wd : String)
    (hmd : ∀ md, md_result = some md → utf8Len md.data ≤ 120)
    (hshort :
      utf8Len (post_clean_text (chooseCandidate (readabilityTextOf rr) ht fb)).data < 80) :
    extract_clean_content md_result rr ht fb wd = post_clean_text wd := by
  have hsel : selectorStage rr ht fb wd = post_clean_text wd := by
    simp only [selectorStage]
    rw [if_pos hshort]
  cases md_result with
  | none => exact hsel
  | some md =>
    have hle := hmd md rfl
    simp only [extract_clean_content]
    rw [if_neg (by omega)]
    exact hsel

/-- Witness for claim C6 as amended, with no mdBook result, failed
readability, empty heuristic and fallback candidates, and a concrete
whole-document rendering. -/
theorem short_output_last_resort_c6_witness :
    (∀ md, (none : Option String) = some md → utf8Len md.data ≤ 120) ∧
    utf8Len (post_clean_text (chooseCandidate (readabilityTextOf none) "" "")).data < 80 ∧
    extract_clean_content none none "" "" "Plain words for the whole document here" =
      post_clean_text "Plain words for the whole document here" :=
  ⟨fun _ h => Option.noConfusion h, by decide,
   short_output_last_resort_c6 none none "" "" "Plain words for the whole document here"
     (fun _ h => Option.noConfusion h) (by decide)⟩

/-- Claim C7 counterexample: the first regex of clean_text already
matches the newline of the input, so pass 1 turns it into a single
space — no line break separating non-blank lines survives pass 1,
contrary to the claim. -/
theorem pass1_counterexample_c7 :
    clean_text "a\nb" = "a b" ∧ '\n' ∉ (clean_text "a\nb").data :=
  ⟨by decide, by decide⟩

/-- Claim C7 as amended: the first pass of the normalizer collapses
every whitespace run — line breaks included — to one single space, so
the blank-line replacement is vacuous, no newline survives pass 1, and
the pass-2 line filter sees the whole collapsed text as one line. -/
theorem pass1_collapses_newlines_c7 (x : String) :
    clean_text x = String.mk (trimChars (collapseWs x.data)) ∧
    '\n' ∉ (clean_text x).data ∧
    splitNl (clean_text x).data = [(clean_text x).data] :=
  ⟨clean_text_eq_trim_collapse x, no_nl_clean_text x,
   splitNl_no_nl _ (no_nl_clean_text x)⟩

/-- Claim C8 counterexample: an html element carrying an empty lang
attribute makes detect_language return the empty string even when
statistical detection succeeds, refuting the claim that the language
field is never empty. -/
theorem language_empty_counterexample_c8 :
    detect_language docLangEmpty (some .eng) = "" := by decide

/-- Claim C8 as amended: the language field follows the fallback chain
of the claim and is non-empty provided every attribute value it
returns is non-blank after trimming (a present html lang or meta
content-language attribute is returned trimmed even when blank) and
any unmapped detected language has a non-empty name. -/
theorem language_nonempty_c8 (doc : HDoc) (wl : Option WhatLang)
    (hlang : ∀ s, htmlLangAttr doc = some s → trimS s ≠ "")
    (hmeta : ∀ s, metaContentLanguage doc = some s → trimS s ≠ "")
    (hwl : ∀ s, wl = some (.otherLang s) → s ≠ "") :
    detect_language doc wl ≠ "" := by
  unfold detect_language
  cases hl : htmlLangAttr doc with
  | some s => exact hlang s hl
  | none =>
    cases hm : metaContentLanguage doc with
    | some s => exact hmeta s hm
    | none =>
      cases wl with
      | none => decide
      | some info =>
        cases info with
        | eng => decide
        | spa => decide
        | fra => decide
        | deu => decide
        | ita => decide
        | por => decide
        | rus => decide
        | jpn => decide
        | kor => decide
        | cmn => decide
        | otherLang s =>
          intro he
          have hdata : toLowerL s.data = ([] : List Char) := congrArg String.data he
          have hs : s.data = [] := by
            simpa [toLowerL] using hdata
          have hs0 : s = "" := by
            cases s with
            | mk d =>
              have hd : d = [] := hs
              rw [hd]
          exact hwl s rfl hs0

/-- Witness for claim C8 as amended at the empty document with a
successful statistical detection of English. -/
theorem language_nonempty_c8_witness :
    (∀ s, htmlLangAttr ⟨.nil⟩ = some s → trimS s ≠ "") ∧
    (∀ s, metaContentLanguage ⟨.nil⟩ = some s → trimS s ≠ "") ∧
    (∀ s, (some WhatLang.eng : Option WhatLang) = some (.otherLang s) → s ≠ "") ∧
    detect_language ⟨.nil⟩ (some .eng) ≠ "" :=
  ⟨fun _ h => Option.noConfusion h,
   fun _ h => Option.noConfusion h,
   fun _ h => WhatLang.noConfusion (Option.some.inj h),
   language_nonempty_c8 ⟨.nil⟩ (some .eng)
     (fun _ h => Option.noConfusion h)
     (fun _ h => Option.noConfusion h)
     (fun _ h => WhatLang.noConfusion (Option.some.inj h))⟩

/-- Claim C9: the headings list is grouped strictly by heading level —
the list is the concatenation of the per-level lists for levels one
through six, so the numeric levels appear in non-decreasing order,
every heading text is non-empty, and the concrete document with a
level two heading before a level one heading yields the level-grouped
list. -/
theorem headings_grouped_c9 (doc : HDoc) :
    extract_headings doc =
      headingsOfLevel doc 1 ++ (headingsOfLevel doc 2 ++ (headingsOfLevel doc 3 ++
        (headingsOfLevel doc 4 ++ (headingsOfLevel doc 5 ++ headingsOfLevel doc 6)))) ∧
    List.Pairwise (fun a b => headingLevelNum a ≤ headingLevelNum b)
      (extract_headings doc) ∧
    (∀ h ∈ extract_headings doc, h.text ≠ "") ∧
    extract_headings docLevels = [⟨"h1", "A"⟩, ⟨"h2", "B"⟩] := by
  refine ⟨?_, ?_, ?_, by decide⟩
  · simp [extract_headings]
  · exact pairwise_flatMap_levels doc _ (by decide) (by decide)
  · intro h hmem
    rw [extract_headings, List.mem_flatMap] at hmem
    obtain ⟨k, _, hmem2⟩ := hmem
    exact (headingsOfLevel_inv doc k h hmem2).2

/-- Claim C10: the normalizer output never holds a newline character:
the whitespace pass removes every newline before the line split, so
pass 2 evaluates its line filter against the entire collapsed text as
one single line. -/
theorem normalizer_single_line_c10 (x : String) :
    '\n' ∉ (post_clean_text x).data ∧ '\n' ∉ (clean_text x).data ∧
    splitNl (clean_text x).data = [(clean_text x).data] := by
  refine ⟨?_, no_nl_clean_text x, splitNl_no_nl _ (no_nl_clean_text x)⟩
  rcases post_clean_text_cases x with h0 | h0
  · rw [h0]
    decide
  · rw [h0]
    exact no_nl_clean_text x

set_option maxHeartbeats 1600000 in
/-- Claim C4: for every input, the extraction score of the source
coincides with the score formula written in the specification, as a
function of the word count, the presence of a published date, the
code block count and the heading count, and consequently it lies in
the closed interval from zero to one. -/
theorem extraction_score_c4 (wc : Nat) (pub : Option String)
    (cbs : List CodeBlock) (hds : List Heading) :
    calculate_extraction_score wc pub cbs hds =
      specScoreFormula wc pub.isSome cbs.length hds.length ∧
    0 ≤ calculate_extraction_score wc pub cbs hds ∧
    calculate_extraction_score wc pub cbs hds ≤ 1 := by
  refine ⟨?_, ?_, ?_⟩
  · simp only [calculate_extraction_score, specScoreFormula]
    rw [min_comm]
    congr 1
    rcases cbs with _ | ⟨cb, cbs2⟩ <;> rcases hds with _ | ⟨hd, hds2⟩ <;>
      simp only [List.isEmpty_nil, List.isEmpty_cons, List.length_nil, List.length_cons,
        if_true, if_false] <;>
      split_ifs <;>
      first
        | contradiction
        | (exfalso; omega)
        | (rw [min_comm]; ring)
        | ring
  · simp only [calculate_extraction_score]
    refine le_min ?_ (by norm_num)
    split_ifs <;> positivity
  · simp only [calculate_extraction_score]
    exact min_le_right _ _

end ClaimTheorems

end SearchScrape
